import Mathlib

/-!
Verification of the Fokker-Planck pusher notebook (`pusherFP.ipynb`,
reproducing fig. 10 of Niel et al., PhysRevE.97.043209).

The notebook advances an ensemble of electron Lorentz factors by
Euler-Maruyama steps

  dgamma = -S dt + sqrt(R) dW,   dW = sqrt(dt) * randn()

with `S` and `R` obtained from two piecewise-linear interpolants
(`scipy.interpolate.interp1d`, default `kind=linear`,
`bounds_error=True`) built on the grid `np.linspace(1, 2*max(gmdist), 200)`.
After every particle update the value is clamped to `>= 1`.  Snapshots of
the ensemble are taken before the loop (`gmdist_dump1`), right after the
step with index `int(tdim/2)` (`gmdist_dump2`), and after the loop
(`gmdist_dump3`).

Python floats are modelled as real numbers.  A Python-level failure
(a `ValueError` from `math.sqrt` on a negative operand, or the
out-of-bounds `ValueError` raised by `interp1d`; with `numpy.sqrt` the
negative-operand case instead yields NaN, i.e. no real value) is modelled
by the `Except PyErr` monad: an operation that does not produce a real
number produces an error value that propagates and aborts the run.
-/

/-- The failures the notebook's numerical kernel can produce:
an interpolation query below the grid, a query above the grid
(`interp1d` with its default `bounds_error=True` raises `ValueError`
for both), and a square root of a negative operand. -/
inductive PyErr : Type where
  | domainLow : ℝ → PyErr
  | domainHigh : ℝ → PyErr
  | sqrtNeg : ℝ → PyErr

/-- `sqrt` as used by the notebook.  On a nonnegative operand it is the
real square root; on a negative operand no real value is produced
(`math.sqrt` raises `ValueError`, `numpy.sqrt` yields NaN), modelled as
an error. -/
noncomputable def sqrtPy (x : ℝ) : Except PyErr ℝ :=
  if x < 0 then .error (.sqrtNeg x) else .ok (Real.sqrt x)

/-- One Euler-Maruyama update of a single particle (the body of the inner
loop of cell 4 of the notebook):

    S = S_intrp(gmdist[i]); R = R_intrp(gmdist[i])
    dW = sqrt(dt) * np.random.randn()
    dgamma = -S * dt + sqrt(R) * dW
    gmdist[i] = gmdist[i] + dgamma
    if gmdist[i] < 1: gmdist[i] = 1

`Sf` and `Rf` stand for the two interpolants, `z` for the value drawn by
`np.random.randn()`. -/
noncomputable def stepFP (Sf Rf : ℝ → Except PyErr ℝ) (dt z gamma : ℝ) :
    Except PyErr ℝ :=
  match Sf gamma with
  | .error e => .error e
  | .ok S =>
    match Rf gamma with
    | .error e => .error e
    | .ok R =>
      match sqrtPy dt with
      | .error e => .error e
      | .ok sdt =>
        match sqrtPy R with
        | .error e => .error e
        | .ok sR =>
          let dW := sdt * z
          let dgamma := -S * dt + sR * dW
          let g1 := gamma + dgamma
          .ok (if g1 < 1 then 1 else g1)

/-- The inner loop of cell 4: update every particle of the ensemble once,
in index order.  `k` is the position in the (global, sequential) stream of
`np.random.randn()` draws; every particle consumes exactly one draw.
Returns the updated ensemble together with the advanced stream position. -/
noncomputable def stepParticles (Sf Rf : ℝ → Except PyErr ℝ) (dt : ℝ)
    (noise : ℕ → ℝ) : List ℝ → ℕ → Except PyErr (List ℝ × ℕ)
  | [], k => .ok ([], k)
  | g :: gs, k =>
    match stepFP Sf Rf dt (noise k) g with
    | .error e => .error e
    | .ok g1 =>
      match stepParticles Sf Rf dt noise gs (k + 1) with
      | .error e => .error e
      | .ok (gs1, k1) => .ok (g1 :: gs1, k1)

/-- The outer loop of cell 4 over the list of remaining step indices.
The state is `(gmdist, gmdist_dump2, stream position)`; after the step
with index `mid` (`mid = int(tdim/2)` at the call site) the current
ensemble is copied into the `dump2` component:

    if t == int(tdim/2): gmdist_dump2 = np.copy(gmdist)
-/
noncomputable def runAux (Sf Rf : ℝ → Except PyErr ℝ) (dt : ℝ)
    (noise : ℕ → ℝ) (mid : ℕ) :
    List ℕ → List ℝ × List ℝ × ℕ → Except PyErr (List ℝ × List ℝ × ℕ)
  | [], st => .ok st
  | t :: ts, (gm, d2, k) =>
    match stepParticles Sf Rf dt noise gm k with
    | .error e => .error e
    | .ok (gm1, k1) =>
      runAux Sf Rf dt noise mid ts (gm1, if t = mid then gm1 else d2, k1)

/-- The three ensemble snapshots the notebook keeps:
`gmdist_dump1` (before the loop), `gmdist_dump2` (after the step with
index `int(tdim/2)`), `gmdist_dump3` (after the loop). -/
structure RunResult : Type where
  dump1 : List ℝ
  dump2 : List ℝ
  dump3 : List ℝ

/-- The full simulation of cells 2 and 4 starting from the (already
sampled and clamped) initial ensemble `gmdist`:
`gmdist_dump1 = np.copy(gmdist)` before the loop,
`gmdist_dump2 = np.copy(gmdist) * 0` before the loop (a zero array of the
same length, overwritten when the mid step is reached),
then `tdim` steps with indices `0, ..., tdim-1`, then
`gmdist_dump3 = np.copy(gmdist)`. -/
noncomputable def runFP (Sf Rf : ℝ → Except PyErr ℝ) (dt : ℝ)
    (noise : ℕ → ℝ) (tdim : ℕ) (gmdist : List ℝ) : Except PyErr RunResult :=
  match runAux Sf Rf dt noise (tdim / 2) (List.range tdim)
      (gmdist, gmdist.map (fun _ => 0), 0) with
  | .error e => .error e
  | .ok (gm, d2, _) => .ok ⟨gmdist, d2, gm⟩

/-- Pure iteration of the per-step ensemble update, with no snapshot
bookkeeping: the ensemble (and noise-stream position) after `n` complete
timesteps. -/
noncomputable def iterSteps (Sf Rf : ℝ → Except PyErr ℝ) (dt : ℝ)
    (noise : ℕ → ℝ) : ℕ → List ℝ × ℕ → Except PyErr (List ℝ × ℕ)
  | 0, st => .ok st
  | n + 1, (gm, k) =>
    match stepParticles Sf Rf dt noise gm k with
    | .error e => .error e
    | .ok st1 => iterSteps Sf Rf dt noise n st1

/-- `np.linspace a b n`: `n` points `a + i * (b - a) / (n - 1)`,
`i = 0, ..., n-1`; for `n >= 2` the first point is `a` and the last is
exactly `b`. -/
noncomputable def linspace (a b : ℝ) (n : ℕ) : List ℝ :=
  (List.range n).map (fun i : ℕ => a + (i : ℝ) * ((b - a) / ((n : ℝ) - 1)))

/-- The interpolation formula of `scipy.interpolate.interp1d` (linear
kind) at a query `x` assumed inside the grid range: the segment index is
`np.searchsorted(xs, x)` (the number of grid points `< x`) clipped to
`[1, len(xs) - 1]`, and the value is
`slope * (x - x_lo) + y_lo` with `slope = (y_hi - y_lo) / (x_hi - x_lo)`. -/
noncomputable def interpCore (xs ys : List ℝ) (x : ℝ) : ℝ :=
  let idx := min (max (xs.countP (fun a => decide (a < x))) 1) (xs.length - 1)
  let xlo := xs.getD (idx - 1) 0
  let xhi := xs.getD idx 0
  let ylo := ys.getD (idx - 1) 0
  let yhi := ys.getD idx 0
  (yhi - ylo) / (xhi - xlo) * (x - xlo) + ylo

/-- A call of an `interp1d` object built from grid `xs` and values `ys`,
with the default `bounds_error=True`: a query below the first grid point
or above the last raises (modelled as `domainLow` / `domainHigh`),
otherwise the piecewise-linear value is returned. -/
noncomputable def interp1dCall (xs ys : List ℝ) (x : ℝ) : Except PyErr ℝ :=
  if x < xs.headD 0 then .error (.domainLow x)
  else if xs.getLastD 0 < x then .error (.domainHigh x)
  else .ok (interpCore xs ys x)

/-- The same interpolant with the below-range branch removed (only the
upper bound is checked).  Used to state that the below-range branch of
`interp1dCall` is unreachable during a run started from a clamped
ensemble. -/
noncomputable def interp1dCallNoLow (xs ys : List ℝ) (x : ℝ) :
    Except PyErr ℝ :=
  if xs.getLastD 0 < x then .error (.domainHigh x)
  else .ok (interpCore xs ys x)

/-- `np.max` over the ensemble (the notebook only takes the maximum of a
nonempty ensemble whose entries are all `>= 1`, for which folding from
the dummy value `0` agrees with the true maximum). -/
noncomputable def listMax (gs : List ℝ) : ℝ := gs.foldr max 0

/-- The interpolation grid of cell 3:
`gmlst = np.linspace(1, 2*np.max(gmdist), 200)`. -/
noncomputable def buildGrid (gs : List ℝ) : List ℝ :=
  linspace 1 (2 * listMax gs) 200

/-- The clamp applied to the freshly sampled ensemble in cell 2:
`gmdist[gmdist < 1] = 1`. -/
noncomputable def sampleClamp (gs : List ℝ) : List ℝ :=
  gs.map (fun g => if g < 1 then 1 else g)

/-- One timestep of the ensemble viewed as an indexed family, with the
particle indices processed in the order given by the list `order`; the
draw used for particle `i` is `zs i` (each particle has its own draw of
the run, whatever the processing order).  This is the per-timestep update
of cell 4 abstracted over the processing order, used to state that the
order does not affect the resulting ensemble. -/
noncomputable def stepIndices (Sf Rf : ℝ → Except PyErr ℝ) (dt : ℝ)
    (zs : ℕ → ℝ) : List ℕ → (ℕ → ℝ) → Except PyErr (ℕ → ℝ)
  | [], g => .ok g
  | i :: rest, g =>
    match stepFP Sf Rf dt (zs i) (g i) with
    | .error e => .error e
    | .ok gi => stepIndices Sf Rf dt zs rest (fun j => if j = i then gi else g j)

/-! ### Helper lemmas about the single-particle step -/

/-- Whatever the inputs, a step that produces a value produces a value
`>= 1`: the last line of the loop body clamps. -/
theorem stepFP_ok_one_le {Sf Rf : ℝ → Except PyErr ℝ} {dt z gamma g1 : ℝ}
    (h : stepFP Sf Rf dt z gamma = .ok g1) : 1 ≤ g1 := by
  unfold stepFP at h
  split at h
  · exact absurd h (by simp)
  split at h
  · exact absurd h (by simp)
  split at h
  · exact absurd h (by simp)
  split at h
  · exact absurd h (by simp)
  simp only [Except.ok.injEq] at h
  subst h
  split
  · exact le_refl 1
  · exact le_of_not_lt (by assumption)

/-- Every entry of an ensemble produced by the inner particle loop is
`>= 1`. -/
theorem stepParticles_ok_one_le {Sf Rf : ℝ → Except PyErr ℝ} {dt : ℝ}
    {noise : ℕ → ℝ} :
    ∀ {gs gs1 : List ℝ} {k k1 : ℕ},
      stepParticles Sf Rf dt noise gs k = .ok (gs1, k1) → ∀ g ∈ gs1, 1 ≤ g := by
  intro gs
  induction gs with
  | nil =>
    intro gs1 k k1 h g hg
    simp only [stepParticles, Except.ok.injEq, Prod.mk.injEq] at h
    rw [← h.1] at hg
    exact absurd hg (List.not_mem_nil g)
  | cons g0 gs ih =>
    intro gs1 k k1 h g hg
    unfold stepParticles at h
    split at h
    · exact absurd h (by simp)
    split at h
    · exact absurd h (by simp)
    rename_i g1 hstep st1 gs2 k2 hrec
    simp only [Except.ok.injEq, Prod.mk.injEq] at h
    rw [← h.1] at hg
    rcases List.mem_cons.mp hg with hg | hg
    · rw [hg]; exact stepFP_ok_one_le hstep
    · exact ih hrec g hg

/-! ### C1: the Euler-Maruyama update formula and the zero-noise scenario -/

/-- C1: a step with interpolated drift `S` and diffusion `R >= 0` returns
`gamma + (-S*dt + sqrt(R)*dW)` with `dW = sqrt(dt)*z`, subject only to the
final lower-bound clamp; and in the concrete scenario `N = 3`, all
particles at `1800`, `T = 2`, `dt = 0.005`, constant `S = 10`, constant
`R = 0` and all noise draws `0`, the final ensemble (and the mid
snapshot, captured at step index `1`) is `[1799.9, 1799.9, 1799.9]`. -/
theorem stepFP_euler_maruyama_and_scenario :
    (∀ (Sf Rf : ℝ → Except PyErr ℝ) (dt z gamma S R : ℝ),
        Sf gamma = .ok S → Rf gamma = .ok R → 0 ≤ dt → 0 ≤ R →
        stepFP Sf Rf dt z gamma =
          .ok (if gamma + (-S * dt + Real.sqrt R * (Real.sqrt dt * z)) < 1
               then 1
               else gamma + (-S * dt + Real.sqrt R * (Real.sqrt dt * z)))) ∧
    runFP (fun _ => .ok 10) (fun _ => .ok 0) 0.005 (fun _ => 0) 2
        [1800, 1800, 1800]
      = .ok ⟨[1800, 1800, 1800], [1799.9, 1799.9, 1799.9],
             [1799.9, 1799.9, 1799.9]⟩ := by
  constructor
  · intro Sf Rf dt z gamma S R hS hR hdt hRnn
    simp only [stepFP, hS, hR, sqrtPy, if_neg (not_lt.mpr hdt),
      if_neg (not_lt.mpr hRnn)]
  · norm_num [runFP, runAux, stepParticles, stepFP, sqrtPy, List.range_succ]

/-- Witness for C1: the general formula applied at the scenario inputs. -/
theorem stepFP_euler_maruyama_witness :
    stepFP (fun _ => .ok 10) (fun _ => .ok 0) 0.005 0 1800 =
      .ok (if (1800 : ℝ) + (-10 * 0.005 + Real.sqrt 0 * (Real.sqrt 0.005 * 0)) < 1
           then 1
           else 1800 + (-10 * 0.005 + Real.sqrt 0 * (Real.sqrt 0.005 * 0))) :=
  stepFP_euler_maruyama_and_scenario.1 _ _ _ _ _ _ _ rfl rfl (by norm_num)
    (by norm_num)

/-! ### C2: the lower-bound invariant -/

/-- C2: every value a step stores is `>= 1` (for every noise draw), every
ensemble produced by the per-timestep particle loop has all entries
`>= 1`, and in the concrete clamp scenario (`gamma = 1.002`, `S = 1`,
`dt = 0.01`, `R = 0`, noise `0`) the step ends at exactly `1`. -/
theorem stepFP_lower_bound_invariant :
    (∀ (Sf Rf : ℝ → Except PyErr ℝ) (dt z gamma g1 : ℝ),
        stepFP Sf Rf dt z gamma = .ok g1 → 1 ≤ g1) ∧
    (∀ (Sf Rf : ℝ → Except PyErr ℝ) (dt : ℝ) (noise : ℕ → ℝ)
        (gs gs1 : List ℝ) (k k1 : ℕ),
        stepParticles Sf Rf dt noise gs k = .ok (gs1, k1) →
        ∀ g ∈ gs1, 1 ≤ g) ∧
    stepFP (fun _ => .ok 1) (fun _ => .ok 0) 0.01 0 1.002 = .ok 1 := by
  refine ⟨?_, ?_, ?_⟩
  · intro Sf Rf dt z gamma g1 h
    exact stepFP_ok_one_le h
  · intro Sf Rf dt noise gs gs1 k k1 h
    exact stepParticles_ok_one_le h
  · norm_num [stepFP, sqrtPy]

/-- Witness for C2: the invariant applied at the clamp scenario. -/
theorem stepFP_lower_bound_witness :
    stepFP (fun _ => .ok 1) (fun _ => .ok 0) 0.01 0 1.002 = .ok 1 ∧
      (1 : ℝ) ≤ 1 :=
  ⟨by norm_num [stepFP, sqrtPy],
   stepFP_lower_bound_invariant.1 (fun _ => .ok 1) (fun _ => .ok 0) 0.01 0
     1.002 1 (by norm_num [stepFP, sqrtPy])⟩

/-! ### C3: the loop takes `sqrt(R)` directly, with no clamp of a
negative `R` -/

/-- Counterexample for C3: with a diffusion interpolant returning
`R = -1`, the step does not complete with `R` treated as `0` (which at
`gamma = 2`, `S = 0`, `dt = 1` would give `.ok 2`): it fails at
`sqrt(R)`. -/
theorem stepFP_negR_counterexample :
    stepFP (fun _ => .ok 0) (fun _ => .ok (-1)) 1 0 2
        = .error (.sqrtNeg (-1)) ∧
      stepFP (fun _ => .ok 0) (fun _ => .ok (-1)) 1 0 2 ≠ .ok 2 := by
  have h1 : stepFP (fun _ => .ok 0) (fun _ => .ok (-1)) 1 0 2
      = .error (.sqrtNeg (-1)) := by norm_num [stepFP, sqrtPy]
  refine ⟨h1, ?_⟩
  rw [h1]
  simp

/-- C3 (amended): the loop body applies `sqrt` to the interpolated `R`
directly, with no prior clamp, so a negative `R` makes the step fail at
`sqrt(R)` (no real value is produced) instead of completing with `R`
clamped to `0`. -/
theorem stepFP_negR_fails :
    ∀ (Sf Rf : ℝ → Except PyErr ℝ) (dt z gamma S R : ℝ),
      Sf gamma = .ok S → Rf gamma = .ok R → 0 ≤ dt → R < 0 →
      stepFP Sf Rf dt z gamma = .error (.sqrtNeg R) := by
  intro Sf Rf dt z gamma S R hS hR hdt hRneg
  simp only [stepFP, hS, hR, sqrtPy, if_neg (not_lt.mpr hdt), if_pos hRneg]

/-- Witness for C3 (amended), at the counterexample's inputs. -/
theorem stepFP_negR_fails_witness :
    stepFP (fun _ => .ok 0) (fun _ => .ok (-1)) 1 0 2
      = .error (.sqrtNeg (-1)) :=
  stepFP_negR_fails _ _ _ _ _ _ _ rfl rfl (by norm_num) (by norm_num)

/-! ### C6: two-run determinism -/

/-- C6: two runs with identical inputs whose noise sources agree draw by
draw produce identical snapshot triples. -/
theorem runFP_two_run_determinism :
    ∀ (Sf Rf : ℝ → Except PyErr ℝ) (dt : ℝ) (noise1 noise2 : ℕ → ℝ)
      (tdim : ℕ) (gs : List ℝ),
      (∀ k, noise1 k = noise2 k) →
      runFP Sf Rf dt noise1 tdim gs = runFP Sf Rf dt noise2 tdim gs := by
  intro Sf Rf dt noise1 noise2 tdim gs h
  rw [funext h]

/-- Witness for C6 at concrete inputs. -/
theorem runFP_two_run_determinism_witness :
    runFP (fun _ => .ok 1) (fun _ => .ok 0) 1 (fun _ => 0) 1 [5]
      = runFP (fun _ => .ok 1) (fun _ => .ok 0) 1 (fun _ => 0) 1 [5] :=
  runFP_two_run_determinism _ _ _ _ _ _ _ (fun _ => rfl)

/-! ### Helper lemmas about `linspace` and `interp1dCall` -/

theorem headD_eq_getD_zero (l : List ℝ) : l.headD 0 = l.getD 0 0 := by
  cases l <;> simp

theorem getLastD_eq_getD (l : List ℝ) :
    l.getLastD 0 = l.getD (l.length - 1) 0 := by
  rw [List.getLastD_eq_getLast?, List.getD_eq_getElem?_getD,
    List.getLast?_eq_getElem?]

theorem range_map_getD (f : ℕ → ℝ) {n j : ℕ} (hj : j < n) :
    ((List.range n).map f).getD j 0 = f j := by
  rw [List.getD_eq_getElem?_getD, List.getElem?_map, List.getElem?_range hj]
  rfl

theorem linspace_length (a b : ℝ) (n : ℕ) : (linspace a b n).length = n := by
  rw [linspace, List.length_map, List.length_range]

theorem linspace_getD (a b : ℝ) {n j : ℕ} (hj : j < n) :
    (linspace a b n).getD j 0 = a + (j : ℝ) * ((b - a) / ((n : ℝ) - 1)) := by
  rw [linspace]
  exact range_map_getD _ hj

theorem countP_range_min {p : ℕ → Bool} {j : ℕ}
    (hp : ∀ i, p i = true ↔ i < j) (n : ℕ) :
    (List.range n).countP p = min j n := by
  induction n with
  | zero => simp
  | succ n ih =>
    rw [List.range_succ, List.countP_append, ih]
    by_cases h : n < j
    · rw [List.countP_cons_of_pos _ _ ((hp n).mpr h)]
      simp only [List.countP_nil]
      omega
    · rw [List.countP_cons_of_neg]
      · simp only [List.countP_nil]
        omega
      · rw [hp n]; omega

theorem countP_linspace_lt (a b x : ℝ) (n j : ℕ)
    (hp : ∀ i : ℕ, (a + (i : ℝ) * ((b - a) / ((n : ℝ) - 1)) < x) ↔ i < j) :
    (linspace a b n).countP (fun t => decide (t < x)) = min j n := by
  have h1 : (linspace a b n).countP (fun t => decide (t < x))
      = (List.range n).countP ((fun t => decide (t < x)) ∘
          (fun i : ℕ => a + (i : ℝ) * ((b - a) / ((n : ℝ) - 1)))) := by
    rw [linspace]
    exact List.countP_map _ _ _
  rw [h1]
  refine countP_range_min (fun i => ?_) n
  simp only [Function.comp_apply, decide_eq_true_eq]
  exact hp i

theorem linspace_headD (a b : ℝ) {n : ℕ} (hn : 0 < n) :
    (linspace a b n).headD 0 = a := by
  rw [headD_eq_getD_zero, linspace_getD a b hn]
  simp

theorem linspace_getLastD_raw (a b : ℝ) {n : ℕ} (hn : 0 < n) :
    (linspace a b n).getLastD 0
      = a + ((n : ℝ) - 1) * ((b - a) / ((n : ℝ) - 1)) := by
  rw [getLastD_eq_getD, linspace_length,
    linspace_getD a b (by omega : n - 1 < n)]
  have hc : ((n - 1 : ℕ) : ℝ) = (n : ℝ) - 1 := by
    have := Nat.cast_sub (by omega : 1 ≤ n) (R := ℝ)
    simpa using this
  rw [hc]

theorem linspace_getLastD_eq (a b : ℝ) {n : ℕ} (hn : 2 ≤ n) :
    (linspace a b n).getLastD 0 = b := by
  rw [linspace_getLastD_raw a b (by omega)]
  have hne : ((n : ℝ) - 1) ≠ 0 := by
    have h2 : (2 : ℝ) ≤ (n : ℝ) := by exact_mod_cast hn
    linarith
  field_simp

theorem linspace_spacing (a b : ℝ) {n j : ℕ} (hj : j + 1 < n) :
    (linspace a b n).getD (j + 1) 0 - (linspace a b n).getD j 0
      = (b - a) / ((n : ℝ) - 1) := by
  rw [linspace_getD a b hj, linspace_getD a b (by omega : j < n)]
  push_cast
  ring

theorem interp1d_below_range (xs ys : List ℝ) (x : ℝ)
    (h : x < xs.headD 0) : interp1dCall xs ys x = .error (.domainLow x) := by
  rw [interp1dCall, if_pos h]

theorem interp1d_above_range (xs ys : List ℝ) (x : ℝ)
    (h1 : ¬ x < xs.headD 0) (h2 : xs.getLastD 0 < x) :
    interp1dCall xs ys x = .error (.domainHigh x) := by
  rw [interp1dCall, if_neg h1, if_pos h2]

theorem interp1d_segment (a b : ℝ) {n j : ℕ} (hn : 2 ≤ n) (hj : j + 1 < n)
    (hab : a < b) (ys : List ℝ) (x : ℝ)
    (hx1 : (linspace a b n).getD j 0 ≤ x)
    (hx2 : x ≤ (linspace a b n).getD (j + 1) 0) :
    interp1dCall (linspace a b n) ys x =
      .ok ((ys.getD (j + 1) 0 - ys.getD j 0) /
            ((linspace a b n).getD (j + 1) 0 - (linspace a b n).getD j 0) *
            (x - (linspace a b n).getD j 0) + ys.getD j 0) := by
  have hnR : (2 : ℝ) ≤ (n : ℝ) := by exact_mod_cast hn
  have hden : (0 : ℝ) < (n : ℝ) - 1 := by linarith
  have hH : (0 : ℝ) < (b - a) / ((n : ℝ) - 1) := div_pos (by linarith) hden
  set H := (b - a) / ((n : ℝ) - 1) with hHdef
  have hgj : (linspace a b n).getD j 0 = a + (j : ℝ) * H :=
    linspace_getD a b (by omega)
  have hgj1 : (linspace a b n).getD (j + 1) 0 = a + ((j : ℝ) + 1) * H := by
    rw [linspace_getD a b hj]
    push_cast
    ring
  have hlow : ¬ x < (linspace a b n).headD 0 := by
    rw [linspace_headD a b (by omega : 0 < n)]
    push_neg
    have h0 : (0 : ℝ) ≤ (j : ℝ) * H :=
      mul_nonneg (Nat.cast_nonneg j) (le_of_lt hH)
    have := hgj ▸ hx1
    linarith
  have hhigh : ¬ (linspace a b n).getLastD 0 < x := by
    push_neg
    rw [linspace_getLastD_raw a b (by omega : 0 < n)]
    have hj1n : (j : ℝ) + 1 ≤ (n : ℝ) - 1 := by
      have hc : ((j : ℕ) : ℝ) + 2 ≤ (n : ℝ) := by exact_mod_cast (by omega : j + 2 ≤ n)
      linarith
    have hstep : a + ((j : ℝ) + 1) * H ≤ a + ((n : ℝ) - 1) * H := by nlinarith
    have := hgj1 ▸ hx2
    linarith
  rw [interp1dCall, if_neg hlow, if_neg hhigh]
  simp only [interpCore]
  rcases eq_or_lt_of_le hx1 with heq | hlt
  · -- query exactly at the left node of the segment
    have hcnt : (linspace a b n).countP (fun t => decide (t < x)) = min j n := by
      refine countP_linspace_lt a b x n j (fun i => ?_)
      rw [← hHdef, ← heq, hgj]
      constructor
      · intro hi
        by_contra hcon
        push_neg at hcon
        have hji : (j : ℝ) ≤ (i : ℝ) := by exact_mod_cast hcon
        nlinarith
      · intro hi
        have hij : (i : ℝ) < (j : ℝ) := by exact_mod_cast hi
        nlinarith
    rw [hcnt, Nat.min_eq_left (by omega : j ≤ n), linspace_length]
    by_cases hj0 : j = 0
    · subst hj0
      rw [show max 0 1 = 1 from rfl, Nat.min_eq_left (by omega : 1 ≤ n - 1)]
    · have hj1 : 1 ≤ j := by omega
      obtain ⟨m, rfl⟩ : ∃ m, j = m + 1 := ⟨j - 1, by omega⟩
      rw [Nat.max_eq_left (by omega : 1 ≤ m + 1),
        Nat.min_eq_left (by omega : m + 1 ≤ n - 1)]
      simp only [Nat.add_sub_cancel, Except.ok.injEq]
      have hgm : (linspace a b n).getD m 0 = a + (m : ℝ) * H :=
        linspace_getD a b (by omega)
      have hgm2 : (linspace a b n).getD (m + 1 + 1) 0
          = a + ((m : ℝ) + 2) * H := by
        rw [linspace_getD a b hj]
        push_cast
        ring
      have hxval : x = a + ((m : ℝ) + 1) * H := by
        rw [← heq, hgj]
        push_cast
        ring
      rw [hgm, hgm2, hgj, hxval]
      have hHne : H ≠ 0 := ne_of_gt hH
      push_cast
      have d1 : a + ((m : ℝ) + 1) * H - (a + (m : ℝ) * H) = H := by ring
      have d2 : a + ((m : ℝ) + 2) * H - (a + ((m : ℝ) + 1) * H) = H := by ring
      have d3 : a + ((m : ℝ) + 1) * H - (a + ((m : ℝ) + 1) * H) = 0 := by ring
      rw [d1, d2, d3, mul_zero, zero_add, div_mul_cancel₀ _ hHne]
      ring
  · -- query strictly inside the segment
    have hcnt : (linspace a b n).countP (fun t => decide (t < x))
        = min (j + 1) n := by
      refine countP_linspace_lt a b x n (j + 1) (fun i => ?_)
      rw [← hHdef]
      constructor
      · intro hi
        by_contra hcon
        push_neg at hcon
        have hji : (j : ℝ) + 1 ≤ (i : ℝ) := by exact_mod_cast hcon
        have hxle : x ≤ a + ((j : ℝ) + 1) * H := hgj1 ▸ hx2
        nlinarith
      · intro hi
        have hij : (i : ℝ) ≤ (j : ℝ) := by exact_mod_cast (by omega : i ≤ j)
        have hxgt : a + (j : ℝ) * H < x := hgj ▸ hlt
        nlinarith
    rw [hcnt, Nat.min_eq_left (by omega : j + 1 ≤ n), linspace_length,
      Nat.max_eq_left (by omega : 1 ≤ j + 1),
      Nat.min_eq_left (by omega : j + 1 ≤ n - 1)]
    simp only [Nat.add_sub_cancel]

theorem linspace_map_getD (f : ℝ → ℝ) (a b : ℝ) {n j : ℕ} (hj : j < n) :
    ((linspace a b n).map f).getD j 0 = f ((linspace a b n).getD j 0) := by
  conv_lhs => rw [linspace]
  rw [List.map_map, range_map_getD _ hj, linspace_getD a b hj]
  rfl

theorem interp1d_node (a b : ℝ) {n j : ℕ} (hn : 2 ≤ n) (hj : j < n)
    (hab : a < b) (f : ℝ → ℝ) :
    interp1dCall (linspace a b n) ((linspace a b n).map f)
        ((linspace a b n).getD j 0)
      = .ok (f ((linspace a b n).getD j 0)) := by
  have hnR : (2 : ℝ) ≤ (n : ℝ) := by exact_mod_cast hn
  have hden : (0 : ℝ) < (n : ℝ) - 1 := by linarith
  have hH : 0 < (b - a) / ((n : ℝ) - 1) := div_pos (by linarith) hden
  rcases lt_or_ge (j + 1) n with hjn | hjn
  · have hmono : (linspace a b n).getD j 0 ≤ (linspace a b n).getD (j + 1) 0 := by
      have hsp := linspace_spacing a b hjn
      linarith
    rw [interp1d_segment a b hn hjn hab _ _ (le_refl _) hmono]
    rw [sub_self, mul_zero, zero_add, linspace_map_getD f a b (by omega : j < n)]
  · obtain ⟨m, rfl⟩ : ∃ m, j = m + 1 := ⟨j - 1, by omega⟩
    have hm1 : m + 1 < n := hj
    have hmono : (linspace a b n).getD m 0 ≤ (linspace a b n).getD (m + 1) 0 := by
      have hsp := linspace_spacing a b hm1
      linarith
    rw [interp1d_segment a b hn hm1 hab _ _ hmono (le_refl _)]
    rw [linspace_spacing a b hm1, div_mul_cancel₀ _ (ne_of_gt hH),
      linspace_map_getD f a b hm1, linspace_map_getD f a b (by omega : m < n)]
    congr 1
    ring

theorem listMax_one_le {gs : List ℝ} (hne : gs ≠ []) (hge : ∀ g ∈ gs, 1 ≤ g) :
    1 ≤ listMax gs := by
  cases gs with
  | nil => exact absurd rfl hne
  | cons g t =>
    have h1 : 1 ≤ g := hge g (List.mem_cons_self g t)
    rw [listMax, List.foldr_cons]
    exact le_trans h1 (le_max_left _ _)

/-! ### C8: the coefficient grid and interpolation exactness -/

/-- C8: for a nonempty clamped initial ensemble, the coefficient grid is
exactly `200` equally spaced points from `1` to `2 * max(ensemble)`
inclusive; every in-range query is interpolated linearly on its segment;
and a query exactly at a grid node returns that node's precomputed
value. -/
theorem grid_and_interpolation_exactness :
    ∀ gs : List ℝ, gs ≠ [] → (∀ g ∈ gs, 1 ≤ g) →
      (buildGrid gs).length = 200 ∧
      (buildGrid gs).headD 0 = 1 ∧
      (buildGrid gs).getLastD 0 = 2 * listMax gs ∧
      (∀ j : ℕ, j + 1 < 200 →
        (buildGrid gs).getD (j + 1) 0 - (buildGrid gs).getD j 0
          = (2 * listMax gs - 1) / 199) ∧
      (∀ (ys : List ℝ) (j : ℕ) (x : ℝ), j + 1 < 200 →
        (buildGrid gs).getD j 0 ≤ x → x ≤ (buildGrid gs).getD (j + 1) 0 →
        interp1dCall (buildGrid gs) ys x =
          .ok ((ys.getD (j + 1) 0 - ys.getD j 0) /
                ((buildGrid gs).getD (j + 1) 0 - (buildGrid gs).getD j 0) *
                (x - (buildGrid gs).getD j 0) + ys.getD j 0)) ∧
      (∀ (f : ℝ → ℝ) (j : ℕ), j < 200 →
        interp1dCall (buildGrid gs) ((buildGrid gs).map f)
            ((buildGrid gs).getD j 0)
          = .ok (f ((buildGrid gs).getD j 0))) := by
  intro gs hne hge
  have hmax : 1 ≤ listMax gs := listMax_one_le hne hge
  have hab : (1 : ℝ) < 2 * listMax gs := by linarith
  refine ⟨?_, ?_, ?_, ?_, ?_, ?_⟩
  · rw [buildGrid]
    exact linspace_length _ _ _
  · rw [buildGrid]
    exact linspace_headD _ _ (by norm_num)
  · rw [buildGrid]
    exact linspace_getLastD_eq _ _ (by norm_num)
  · intro j hj
    rw [buildGrid, linspace_spacing _ _ hj]
    norm_num
  · intro ys j x hj h1 h2
    rw [buildGrid] at h1 h2 ⊢
    exact interp1d_segment _ _ (by norm_num) hj hab ys x h1 h2
  · intro f j hj
    rw [buildGrid]
    exact interp1d_node _ _ (by norm_num) hj hab f

/-- Witness for C8 at the concrete one-particle ensemble `[1800]`. -/
theorem grid_and_interpolation_witness :
    (buildGrid [(1800 : ℝ)]).length = 200 :=
  (grid_and_interpolation_exactness [1800] (by simp) (by norm_num)).1

/-! ### C4: out-of-range queries fail and abort the run -/

/-- C4: a query below `1` or above the grid maximum `c` makes the
interpolant fail with the corresponding domain error (no clamping or
extrapolation); an interpolant error makes the particle step fail with
the same error; and a run whose first particle's step fails aborts with
that same error surfaced unmodified. -/
theorem interp_out_of_range_aborts :
    (∀ (c x : ℝ) (ys : List ℝ), 1 ≤ c → x < 1 →
        interp1dCall (linspace 1 c 200) ys x = .error (.domainLow x)) ∧
    (∀ (c x : ℝ) (ys : List ℝ), 1 ≤ c → c < x →
        interp1dCall (linspace 1 c 200) ys x = .error (.domainHigh x)) ∧
    (∀ (Sf Rf : ℝ → Except PyErr ℝ) (dt z gamma : ℝ) (e : PyErr),
        Sf gamma = .error e → stepFP Sf Rf dt z gamma = .error e) ∧
    (∀ (Sf Rf : ℝ → Except PyErr ℝ) (dt z gamma S : ℝ) (e : PyErr),
        Sf gamma = .ok S → Rf gamma = .error e →
        stepFP Sf Rf dt z gamma = .error e) ∧
    (∀ (Sf Rf : ℝ → Except PyErr ℝ) (dt : ℝ) (noise : ℕ → ℝ) (tdim : ℕ)
        (g : ℝ) (gs : List ℝ) (e : PyErr),
        1 ≤ tdim → stepFP Sf Rf dt (noise 0) g = .error e →
        runFP Sf Rf dt noise tdim (g :: gs) = .error e) := by
  refine ⟨?_, ?_, ?_, ?_, ?_⟩
  · intro c x ys hc hx
    refine interp1d_below_range _ _ _ ?_
    rw [linspace_headD _ _ (by norm_num : 0 < 200)]
    exact hx
  · intro c x ys hc hx
    refine interp1d_above_range _ _ _ ?_ ?_
    · rw [linspace_headD _ _ (by norm_num : 0 < 200)]
      push_neg
      linarith
    · rw [linspace_getLastD_eq _ _ (by norm_num : 2 ≤ 200)]
      exact hx
  · intro Sf Rf dt z gamma e h
    simp only [stepFP, h]
  · intro Sf Rf dt z gamma S e hS hR
    simp only [stepFP, hS, hR]
  · intro Sf Rf dt noise tdim g gs e htd hstep
    obtain ⟨m, rfl⟩ : ∃ m, tdim = m + 1 := ⟨tdim - 1, by omega⟩
    have hsp : stepParticles Sf Rf dt noise (g :: gs) 0 = .error e := by
      simp only [stepParticles, hstep]
    have hrun : runAux Sf Rf dt noise ((m + 1) / 2) (List.range (m + 1))
        (g :: gs, (g :: gs).map (fun _ => 0), 0) = .error e := by
      rw [List.range_succ_eq_map]
      simp only [runAux, hsp]
    simp only [runFP, hrun]

/-- Witness for C4: a below-range query on the grid with maximum `3600`,
and a one-step run aborted by an interpolant error. -/
theorem interp_out_of_range_witness :
    interp1dCall (linspace 1 3600 200) [] 0 = .error (.domainLow 0) ∧
      runFP (fun x => .error (.domainHigh x)) (fun _ => .ok 0) 1 (fun _ => 0)
          1 [2] = .error (.domainHigh 2) :=
  ⟨interp_out_of_range_aborts.1 3600 0 [] (by norm_num) (by norm_num),
   interp_out_of_range_aborts.2.2.2.2 _ _ 1 (fun _ => 0) 1 2 [] _
     (by norm_num)
     (interp_out_of_range_aborts.2.2.1 _ (fun _ => .ok 0) 1 0 2 _ rfl)⟩

/-! ### C7: there is no configuration validation -/

theorem runAux_nil_ensemble (Sf Rf : ℝ → Except PyErr ℝ) (dt : ℝ)
    (noise : ℕ → ℝ) (mid : ℕ) :
    ∀ (l : List ℕ) (k : ℕ),
      runAux Sf Rf dt noise mid l ([], [], k) = .ok ([], [], k) := by
  intro l
  induction l with
  | nil => intro k; rfl
  | cons t ts ih =>
    intro k
    simp only [runAux, stepParticles, ite_self]
    exact ih k

/-- Counterexample for C7: with `T = 0` (so `T ≤ 0`) the run does not
fail with any configuration error: it performs zero steps and completes
normally (the mid snapshot keeps its zero-filled initial value). -/
theorem run_no_config_error_counterexample :
    runFP (fun _ => .ok 0) (fun _ => .ok 0) 1 (fun _ => 0) 0 [2]
      = .ok ⟨[2], [0], [2]⟩ := by
  norm_num [runFP, runAux]

/-- C7 (amended): the code performs no validation of `T` or `dt`:
`T = 0` yields zero steps and a normal completion whose mid snapshot is
the zero-filled initial dump; a negative `dt` is only detected inside the
first step, at `sqrt(dt)`, not before stepping; and an empty ensemble
(`N = 0`) completes trivially with three empty snapshots for every `T`
(this last part of the claim holds as stated). -/
theorem runFP_validation_behavior :
    (∀ (Sf Rf : ℝ → Except PyErr ℝ) (dt : ℝ) (noise : ℕ → ℝ)
        (gs : List ℝ),
        runFP Sf Rf dt noise 0 gs = .ok ⟨gs, gs.map (fun _ => 0), gs⟩) ∧
    (∀ (Sf Rf : ℝ → Except PyErr ℝ) (dt : ℝ) (noise : ℕ → ℝ) (tdim : ℕ),
        runFP Sf Rf dt noise tdim [] = .ok ⟨[], [], []⟩) ∧
    (∀ (Sf Rf : ℝ → Except PyErr ℝ) (dt z gamma S R : ℝ),
        Sf gamma = .ok S → Rf gamma = .ok R → dt < 0 →
        stepFP Sf Rf dt z gamma = .error (.sqrtNeg dt)) := by
  refine ⟨?_, ?_, ?_⟩
  · intro Sf Rf dt noise gs
    simp [runFP, runAux]
  · intro Sf Rf dt noise tdim
    simp [runFP, runAux_nil_ensemble]
  · intro Sf Rf dt z gamma S R hS hR hdt
    simp only [stepFP, hS, hR, sqrtPy, if_pos hdt]

/-- Witness for C7 (amended) at concrete inputs. -/
theorem runFP_validation_witness :
    runFP (fun _ => .ok 0) (fun _ => .ok 0) 1 (fun _ => 0) 3 []
        = .ok ⟨[], [], []⟩ ∧
      stepFP (fun _ => .ok 0) (fun _ => .ok 0) (-1) 0 5
        = .error (.sqrtNeg (-1)) :=
  ⟨runFP_validation_behavior.2.1 _ _ 1 (fun _ => 0) 3,
   runFP_validation_behavior.2.2 _ _ (-1) 0 5 0 0 rfl rfl (by norm_num)⟩

/-! ### C5: snapshot timing -/

theorem runAux_append (Sf Rf : ℝ → Except PyErr ℝ) (dt : ℝ) (noise : ℕ → ℝ)
    (mid : ℕ) :
    ∀ (l1 l2 : List ℕ) (st : List ℝ × List ℝ × ℕ),
      runAux Sf Rf dt noise mid (l1 ++ l2) st
        = (runAux Sf Rf dt noise mid l1 st).bind
            (runAux Sf Rf dt noise mid l2) := by
  intro l1
  induction l1 with
  | nil => intro l2 st; rfl
  | cons t ts ih =>
    intro l2 st
    obtain ⟨gm, d2, k⟩ := st
    simp only [List.cons_append, runAux]
    cases hsp : stepParticles Sf Rf dt noise gm k with
    | error e => rfl
    | ok st1 =>
      obtain ⟨gm1, k1⟩ := st1
      exact ih l2 _

theorem iterSteps_add (Sf Rf : ℝ → Except PyErr ℝ) (dt : ℝ) (noise : ℕ → ℝ) :
    ∀ (m n : ℕ) (st : List ℝ × ℕ),
      iterSteps Sf Rf dt noise (m + n) st
        = (iterSteps Sf Rf dt noise m st).bind
            (iterSteps Sf Rf dt noise n) := by
  intro m
  induction m with
  | zero => intro n st; rw [Nat.zero_add]; rfl
  | succ m ih =>
    intro n st
    obtain ⟨gm, k⟩ := st
    rw [Nat.succ_add]
    simp only [iterSteps]
    cases hsp : stepParticles Sf Rf dt noise gm k with
    | error e => rfl
    | ok st1 => exact ih n st1

theorem runAux_no_mid (Sf Rf : ℝ → Except PyErr ℝ) (dt : ℝ) (noise : ℕ → ℝ)
    (mid : ℕ) :
    ∀ (l : List ℕ), (∀ t ∈ l, t ≠ mid) →
      ∀ (gm d2 : List ℝ) (k : ℕ),
        runAux Sf Rf dt noise mid l (gm, d2, k)
          = (iterSteps Sf Rf dt noise l.length (gm, k)).map
              (fun p => (p.1, d2, p.2)) := by
  intro l
  induction l with
  | nil => intro h gm d2 k; rfl
  | cons t ts ih =>
    intro h gm d2 k
    simp only [runAux, List.length_cons, iterSteps]
    cases hsp : stepParticles Sf Rf dt noise gm k with
    | error e => rfl
    | ok st1 =>
      obtain ⟨gm1, k1⟩ := st1
      dsimp only
      rw [if_neg (h t (List.mem_cons_self t ts))]
      exact ih (fun u hu => h u (List.mem_cons_of_mem t hu)) gm1 d2 k1

theorem runAux_mid_single (Sf Rf : ℝ → Except PyErr ℝ) (dt : ℝ)
    (noise : ℕ → ℝ) (mid : ℕ) (gm d2 : List ℝ) (k : ℕ) :
    runAux Sf Rf dt noise mid [mid] (gm, d2, k)
      = (iterSteps Sf Rf dt noise 1 (gm, k)).map
          (fun p => (p.1, p.1, p.2)) := by
  simp only [runAux, iterSteps]
  cases hsp : stepParticles Sf Rf dt noise gm k with
  | error e => rfl
  | ok st1 =>
    obtain ⟨gm1, k1⟩ := st1
    dsimp only
    rw [if_true]
    rfl

/-- C5: for `T = 1000` the mid snapshot is the ensemble after exactly
`501` completed steps (i.e. right after the step with index
`500 = T/2`), and the final snapshot is the ensemble after all `1000`
steps; the first snapshot is the initial ensemble. -/
theorem run_snapshot_timing :
    ∀ (Sf Rf : ℝ → Except PyErr ℝ) (dt : ℝ) (noise : ℕ → ℝ) (gs : List ℝ),
      runFP Sf Rf dt noise 1000 gs =
        (iterSteps Sf Rf dt noise 501 (gs, 0)).bind (fun p =>
          (iterSteps Sf Rf dt noise 499 p).map (fun q =>
            RunResult.mk gs p.1 q.1)) := by
  intro Sf Rf dt noise gs
  have hmid : (1000 : ℕ) / 2 = 500 := by norm_num
  have h500 : ∀ t ∈ List.range 500, t ≠ 500 := by
    intro t ht
    have := List.mem_range.mp ht
    omega
  have h499 : ∀ t ∈ (List.range 499).map (fun i => 501 + i), t ≠ 500 := by
    intro t ht
    obtain ⟨i, hi, rfl⟩ := List.mem_map.mp ht
    omega
  have hsplit : List.range 1000
      = (List.range 500 ++ [500]) ++ (List.range 499).map (fun i => 501 + i) := by
    have h1 : List.range (501 + 499)
        = List.range 501 ++ (List.range 499).map (fun i => 501 + i) :=
      List.range_add 501 499
    have h2 : List.range 501 = List.range 500 ++ [500] := by
      simpa using List.range_succ 500
    rw [show (1000 : ℕ) = 501 + 499 from rfl, h1, h2]
  simp only [runFP]
  rw [hmid, hsplit, runAux_append, runAux_append,
    runAux_no_mid Sf Rf dt noise 500 (List.range 500) h500,
    show (501 : ℕ) = 500 + 1 from rfl, iterSteps_add]
  simp only [List.length_range]
  cases h1 : iterSteps Sf Rf dt noise 500 (gs, 0) with
  | error e => rfl
  | ok p =>
    obtain ⟨gm1, k1⟩ := p
    simp only [Except.map, Except.bind]
    rw [runAux_mid_single]
    cases h2 : iterSteps Sf Rf dt noise 1 (gm1, k1) with
    | error e2 => rfl
    | ok p2 =>
      obtain ⟨gm2, k2⟩ := p2
      simp only [Except.map, Except.bind]
      rw [runAux_no_mid Sf Rf dt noise 500 _ h499]
      simp only [List.length_map, List.length_range]
      cases h3 : iterSteps Sf Rf dt noise 499 (gm2, k2) with
      | error e3 => rfl
      | ok q =>
        obtain ⟨gm3, k3⟩ := q
        rfl

/-! ### C9: order invariance of the per-timestep update -/

theorem stepIndices_perm (Sf Rf : ℝ → Except PyErr ℝ) (dt : ℝ) (zs : ℕ → ℝ) :
    ∀ {l1 l2 : List ℕ}, l1.Perm l2 → l1.Nodup →
      ∀ g : ℕ → ℝ,
        (stepIndices Sf Rf dt zs l1 g).toOption
          = (stepIndices Sf Rf dt zs l2 g).toOption := by
  intro l1 l2 hperm
  induction hperm with
  | nil => intro _ g; rfl
  | cons x h ih =>
    intro hnd g
    simp only [stepIndices]
    cases hs : stepFP Sf Rf dt (zs x) (g x) with
    | error e => rfl
    | ok gx => exact ih (List.nodup_cons.mp hnd).2 _
  | swap x y l =>
    intro hnd g
    have hyx : ¬ y = x := by
      intro hh
      exact (List.nodup_cons.mp hnd).1 (hh ▸ List.mem_cons_self x l)
    have hxy : ¬ x = y := fun hh => hyx hh.symm
    simp only [stepIndices, if_neg hxy, if_neg hyx]
    cases hsy : stepFP Sf Rf dt (zs y) (g y) with
    | error ey =>
      cases hsx : stepFP Sf Rf dt (zs x) (g x) with
      | error ex => rfl
      | ok gx => rfl
    | ok gy =>
      cases hsx : stepFP Sf Rf dt (zs x) (g x) with
      | error ex => rfl
      | ok gx =>
        have hupd : (fun j => if j = x then gx else if j = y then gy else g j)
            = (fun j => if j = y then gy else if j = x then gx else g j) := by
          funext j
          by_cases hjx : j = x
          · subst hjx
            rw [if_pos rfl, if_neg hxy, if_pos rfl]
          · by_cases hjy : j = y
            · subst hjy
              rw [if_pos rfl, if_neg hyx, if_pos rfl]
            · rw [if_neg hjx, if_neg hjy, if_neg hjy, if_neg hjx]
        dsimp only
        rw [hupd]
  | trans h1 h2 ih1 ih2 =>
    intro hnd g
    exact (ih1 hnd g).trans (ih2 ((h1.nodup_iff).mp hnd) g)

theorem stepIndices_map_succ (Sf Rf : ℝ → Except PyErr ℝ) (dt : ℝ)
    (zs : ℕ → ℝ) :
    ∀ (l : List ℕ) (h : ℕ → ℝ),
      stepIndices Sf Rf dt zs (l.map Nat.succ) h
        = (stepIndices Sf Rf dt (fun i => zs (i + 1)) l
            (fun i => h (i + 1))).map
            (fun g => fun j => match j with
              | 0 => h 0
              | Nat.succ j1 => g j1) := by
  intro l
  induction l with
  | nil =>
    intro h
    simp only [List.map_nil, stepIndices, Except.map]
    congr 1
    funext j
    cases j with
    | zero => rfl
    | succ j1 => rfl
  | cons i l ih =>
    intro h
    simp only [List.map_cons, stepIndices, Nat.succ_eq_add_one]
    cases hs : stepFP Sf Rf dt (zs (i + 1)) (h (i + 1)) with
    | error e => rfl
    | ok gi =>
      dsimp only
      rw [ih (fun j => if j = i + 1 then gi else h j)]
      have hstate : (fun i1 : ℕ => if i1 + 1 = i + 1 then gi else h (i1 + 1))
          = (fun i1 : ℕ => if i1 = i then gi else h (i1 + 1)) := by
        funext i1
        by_cases hc : i1 = i
        · subst hc
          rw [if_pos rfl, if_pos rfl]
        · rw [if_neg (by omega), if_neg hc]
      have hzero : (if (0 : ℕ) = i + 1 then gi else h 0) = h 0 := by
        rw [if_neg (by omega)]
      rw [hstate]
      simp only [hzero]

theorem stepParticles_eq_stepIndices (Sf Rf : ℝ → Except PyErr ℝ) (dt : ℝ)
    (noise : ℕ → ℝ) :
    ∀ (gs : List ℝ) (k : ℕ),
      stepParticles Sf Rf dt noise gs k
        = (stepIndices Sf Rf dt (fun i => noise (k + i))
            (List.range gs.length) (fun i => gs.getD i 0)).map
            (fun g => ((List.range gs.length).map g, k + gs.length)) := by
  intro gs
  induction gs with
  | nil =>
    intro k
    simp [stepParticles, stepIndices, Except.map]
  | cons g0 t ih =>
    intro k
    simp only [stepParticles, List.length_cons]
    rw [List.range_succ_eq_map]
    simp only [stepIndices, Nat.add_zero, List.getD_cons_zero]
    cases hs : stepFP Sf Rf dt (noise k) g0 with
    | error e => rfl
    | ok g1 =>
      dsimp only
      rw [ih (k + 1), stepIndices_map_succ]
      have hz : (fun i : ℕ => noise (k + (i + 1))) = (fun i : ℕ => noise (k + 1 + i)) := by
        funext i
        congr 1
        omega
      have hst : (fun i : ℕ => if i + 1 = 0 then g1 else (g0 :: t).getD (i + 1) 0)
          = (fun i : ℕ => t.getD i 0) := by
        funext i
        rw [if_neg (by omega), List.getD_cons_succ]
      rw [hz, hst]
      cases hI : stepIndices Sf Rf dt (fun i => noise (k + 1 + i))
          (List.range t.length) (fun i => t.getD i 0) with
      | error e => rfl
      | ok gfun =>
        simp only [Except.map]
        congr 1
        dsimp only
        simp only [if_true, List.map_map, Prod.mk.injEq]
        refine ⟨?_, by omega⟩
        rw [List.map_cons, List.map_map]
        refine congrArg₂ List.cons rfl ?_
        congr 1

/-- C9: within one timestep, each particle's draw being fixed, updating
the particles in any order (any permutation of the index list) yields the
same resulting ensemble (and failure behaviour); and the notebook's inner
loop is exactly this indexed update processed in index order `0, ..., N-1`
with the sequential draws `noise (k+i)`. -/
theorem step_order_invariance :
    (∀ (Sf Rf : ℝ → Except PyErr ℝ) (dt : ℝ) (zs : ℕ → ℝ) (g : ℕ → ℝ)
        (n : ℕ) (order : List ℕ),
        order.Perm (List.range n) →
        (stepIndices Sf Rf dt zs order g).toOption
          = (stepIndices Sf Rf dt zs (List.range n) g).toOption) ∧
    (∀ (Sf Rf : ℝ → Except PyErr ℝ) (dt : ℝ) (noise : ℕ → ℝ)
        (gs : List ℝ) (k : ℕ),
        stepParticles Sf Rf dt noise gs k
          = (stepIndices Sf Rf dt (fun i => noise (k + i))
              (List.range gs.length) (fun i => gs.getD i 0)).map
              (fun g => ((List.range gs.length).map g, k + gs.length))) := by
  constructor
  · intro Sf Rf dt zs g n order hperm
    exact stepIndices_perm Sf Rf dt zs hperm
      (hperm.nodup_iff.mpr (List.nodup_range n)) g
  · exact fun Sf Rf dt noise gs k =>
      stepParticles_eq_stepIndices Sf Rf dt noise gs k

/-- Witness for C9: the reversed order on two particles. -/
theorem step_order_invariance_witness :
    (stepIndices (fun _ => .ok 1) (fun _ => .ok 0) 1 (fun _ => 0) [1, 0]
        (fun _ => 2)).toOption
      = (stepIndices (fun _ => .ok 1) (fun _ => .ok 0) 1 (fun _ => 0)
          (List.range 2) (fun _ => 2)).toOption :=
  step_order_invariance.1 _ _ 1 (fun _ => 0) (fun _ => 2) 2 [1, 0] (by decide)

/-! ### C10: the below-range branch of the interpolants is unreachable -/

theorem sampleClamp_one_le (gs : List ℝ) : ∀ g ∈ sampleClamp gs, 1 ≤ g := by
  intro g hg
  rw [sampleClamp] at hg
  obtain ⟨g0, _, rfl⟩ := List.mem_map.mp hg
  split
  · exact le_refl 1
  · exact le_of_not_lt (by assumption)

theorem interp_agree_of_one_le (xs ys : List ℝ) (x : ℝ)
    (hhead : xs.headD 0 = 1) (hx : 1 ≤ x) :
    interp1dCall xs ys x = interp1dCallNoLow xs ys x := by
  rw [interp1dCall, interp1dCallNoLow, hhead, if_neg (not_lt.mpr hx)]

theorem stepFP_congr_ge_one {Sf Rf Sf2 Rf2 : ℝ → Except PyErr ℝ}
    (hS : ∀ x, 1 ≤ x → Sf x = Sf2 x) (hR : ∀ x, 1 ≤ x → Rf x = Rf2 x)
    {dt z gamma : ℝ} (hg : 1 ≤ gamma) :
    stepFP Sf Rf dt z gamma = stepFP Sf2 Rf2 dt z gamma := by
  simp only [stepFP, hS gamma hg, hR gamma hg]

theorem stepParticles_congr_ge_one {Sf Rf Sf2 Rf2 : ℝ → Except PyErr ℝ}
    {dt : ℝ} {noise : ℕ → ℝ}
    (hS : ∀ x, 1 ≤ x → Sf x = Sf2 x) (hR : ∀ x, 1 ≤ x → Rf x = Rf2 x) :
    ∀ (gs : List ℝ), (∀ g ∈ gs, 1 ≤ g) → ∀ k : ℕ,
      stepParticles Sf Rf dt noise gs k
        = stepParticles Sf2 Rf2 dt noise gs k := by
  intro gs
  induction gs with
  | nil => intro _ k; rfl
  | cons g t ih =>
    intro hgs k
    simp only [stepParticles]
    rw [stepFP_congr_ge_one hS hR (hgs g (List.mem_cons_self g t))]
    cases hs : stepFP Sf2 Rf2 dt (noise k) g with
    | error e => rfl
    | ok g1 =>
      rw [ih (fun u hu => hgs u (List.mem_cons_of_mem g hu)) (k + 1)]

theorem runAux_congr_ge_one {Sf Rf Sf2 Rf2 : ℝ → Except PyErr ℝ}
    (dt : ℝ) (noise : ℕ → ℝ) (mid : ℕ)
    (hS : ∀ x, 1 ≤ x → Sf x = Sf2 x) (hR : ∀ x, 1 ≤ x → Rf x = Rf2 x) :
    ∀ (l : List ℕ) (gm d2 : List ℝ) (k : ℕ), (∀ g ∈ gm, 1 ≤ g) →
      runAux Sf Rf dt noise mid l (gm, d2, k)
        = runAux Sf2 Rf2 dt noise mid l (gm, d2, k) := by
  intro l
  induction l with
  | nil => intro gm d2 k _; rfl
  | cons t ts ih =>
    intro gm d2 k hgm
    simp only [runAux]
    rw [stepParticles_congr_ge_one hS hR gm hgm k]
    cases hsp : stepParticles Sf2 Rf2 dt noise gm k with
    | error e => rfl
    | ok st1 =>
      obtain ⟨gm1, k1⟩ := st1
      exact ih gm1 _ k1 (stepParticles_ok_one_le hsp)

/-- C10: the lower-bound clamp writes `1`, which is exactly the grid's
lower endpoint; starting from the clamped initial ensemble every
interpolant query of the run is at a Lorentz factor `>= 1 = grid_min`,
so the whole run is unchanged when the interpolants' below-range error
branch is removed — only the upper grid bound can ever be exceeded. -/
theorem below_range_unreachable :
    ∀ (raw : List ℝ) (fS fR : ℝ → ℝ) (dt : ℝ) (noise : ℕ → ℝ) (tdim : ℕ),
      (buildGrid (sampleClamp raw)).headD 0 = 1 ∧
      runFP (interp1dCall (buildGrid (sampleClamp raw))
              ((buildGrid (sampleClamp raw)).map fS))
            (interp1dCall (buildGrid (sampleClamp raw))
              ((buildGrid (sampleClamp raw)).map fR))
            dt noise tdim (sampleClamp raw)
        = runFP (interp1dCallNoLow (buildGrid (sampleClamp raw))
                  ((buildGrid (sampleClamp raw)).map fS))
                (interp1dCallNoLow (buildGrid (sampleClamp raw))
                  ((buildGrid (sampleClamp raw)).map fR))
                dt noise tdim (sampleClamp raw) := by
  intro raw fS fR dt noise tdim
  have hhead : (buildGrid (sampleClamp raw)).headD 0 = 1 := by
    rw [buildGrid]
    exact linspace_headD _ _ (by norm_num)
  refine ⟨hhead, ?_⟩
  have hS : ∀ x, 1 ≤ x →
      interp1dCall (buildGrid (sampleClamp raw))
          ((buildGrid (sampleClamp raw)).map fS) x
        = interp1dCallNoLow (buildGrid (sampleClamp raw))
            ((buildGrid (sampleClamp raw)).map fS) x :=
    fun x hx => interp_agree_of_one_le _ _ _ hhead hx
  have hR : ∀ x, 1 ≤ x →
      interp1dCall (buildGrid (sampleClamp raw))
          ((buildGrid (sampleClamp raw)).map fR) x
        = interp1dCallNoLow (buildGrid (sampleClamp raw))
            ((buildGrid (sampleClamp raw)).map fR) x :=
    fun x hx => interp_agree_of_one_le _ _ _ hhead hx
  have hrun := runAux_congr_ge_one dt noise (tdim / 2) hS hR
    (List.range tdim) (sampleClamp raw)
    ((sampleClamp raw).map (fun _ => 0)) 0 (sampleClamp_one_le raw)
  simp only [runFP, hrun]
